import Mathlib

set_option maxRecDepth 100000

set_option allowUnsafeReducibility true in
attribute [semireducible] Rat.mul Rat.sub Rat.add Rat.div Rat.neg Rat.blt Rat.inv

/-!
# Verification of the Gauss-Jordan matrix-inversion engine

A shallow embedding, over exact rational arithmetic, of the elimination
engine of `matrix_inverter.py`: `gauss_jordan_inverse` (partial pivoting,
singularity check, pivot normalisation, column elimination, step recording),
the surrounding `calculate_inverse` determinant gate, and the
`format_number` / `to_subscript` renderers.  Doubles are idealised as `ℚ`;
the `1e-10` tolerance is the exact rational `eps`.
-/

namespace MatrixInverter

/-- The tolerance `1e-10` used throughout the source. -/
def eps : ℚ := 1 / 10 ^ 10

/-- Square rational matrix, the caller's data. -/
abbrev Mat (n : ℕ) := Matrix (Fin n) (Fin n) ℚ

/-- The augmented working matrix `[A | I]`: rows `Fin n`, columns split as
left block `Sum.inl` and right block `Sum.inr` (numpy's `hstack`). -/
abbrev AMat (n : ℕ) := Matrix (Fin n) (Fin n ⊕ Fin n) ℚ

/-- One recorded elementary row operation.  The source stores
`(type, rendered string)` tuples; here the operands are kept and the
rendered pair is recovered by `Step.kind` and `Step.render`.
Indices are 0-based as in the source. -/
inductive Step (n : ℕ) where
  /-- type 1: swap rows `i` and `j` (`augmented[[col, max_row]] = ...`). -/
  | swap (i j : Fin n)
  /-- type 2: multiply row `i` by the scalar `c` (`augmented[col] * scalar`). -/
  | scale (i : Fin n) (c : ℚ)
  /-- type 3: add `f` times row `src` to row `r`
  (`augmented[row] + factor * augmented[col]`). -/
  | combine (r src : Fin n) (f : ℚ)
deriving DecidableEq

/-- The integer type tag the source stores with each step. -/
def Step.kind {n : ℕ} : Step n → ℕ
  | .swap _ _ => 1
  | .scale _ _ => 2
  | .combine _ _ _ => 3

/-- Row swap: `augmented[[col, max_row]] = augmented[[max_row, col]]`. -/
def rowSwap {n : ℕ} {m : Type} (M : Matrix (Fin n) m ℚ) (i j : Fin n) :
    Matrix (Fin n) m ℚ :=
  M.submatrix (Equiv.swap i j) id

/-- Row scale: `augmented[col] = augmented[col] * scalar`. -/
def rowScale {n : ℕ} {m : Type} (M : Matrix (Fin n) m ℚ) (i : Fin n) (c : ℚ) :
    Matrix (Fin n) m ℚ :=
  M.updateRow i fun j => M i j * c

/-- Row combine: `augmented[row] = augmented[row] + factor * augmented[col]`. -/
def rowCombine {n : ℕ} {m : Type} (M : Matrix (Fin n) m ℚ) (r src : Fin n) (f : ℚ) :
    Matrix (Fin n) m ℚ :=
  M.updateRow r fun j => M r j + f * M src j

/-- The state change a recorded step performs, on any matrix with rows
`Fin n` (the column type is irrelevant: all three operations act row-wise). -/
def Step.apply {n : ℕ} {m : Type} (s : Step n) (M : Matrix (Fin n) m ℚ) :
    Matrix (Fin n) m ℚ :=
  match s with
  | .swap i j => rowSwap M i j
  | .scale i c => rowScale M i c
  | .combine r src f => rowCombine M r src f

/-- Apply a list of recorded steps in order. -/
def applySteps {n : ℕ} {m : Type} (l : List (Step n)) (M : Matrix (Fin n) m ℚ) :
    Matrix (Fin n) m ℚ :=
  l.foldl (fun M s => s.apply M) M

/-- The body of the pivot scan: replace the best row so far exactly when the
candidate's entry has strictly larger absolute value
(`abs(augmented[row, col]) > abs(augmented[max_row, col])`). -/
def pivotF {n : ℕ} (M : AMat n) (col : Fin n) (best r : Fin n) : Fin n :=
  if |M best (Sum.inl col)| < |M r (Sum.inl col)| then r else best

/-- Partial pivoting: scan rows `col+1 .. n-1`, keeping the row whose entry in
column `col` has strictly larger absolute value than the best so far
(`max_row` of the source; first row wins exact ties). -/
def findPivot {n : ℕ} (M : AMat n) (col : Fin n) : Fin n :=
  ((List.finRange n).filter (fun r => col < r)).foldl (pivotF M col) col

/-- The augmented matrix after the (possible) row swap of the pivot phase. -/
def pivotSwapMat {n : ℕ} (M : AMat n) (col : Fin n) : AMat n :=
  if findPivot M col ≠ col then rowSwap M col (findPivot M col) else M

/-- The pivot entry `augmented[col][col]` tested against `eps` after pivoting. -/
def pivotValue {n : ℕ} (M : AMat n) (col : Fin n) : ℚ :=
  pivotSwapMat M col col (Sum.inl col)

/-- The steps recorded by the pivot phase: a `RowSwap(col, max_row)` exactly
when `max_row ≠ col`. -/
def swapDelta {n : ℕ} (M : AMat n) (col : Fin n) : List (Step n) :=
  if findPivot M col ≠ col then [Step.swap col (findPivot M col)] else []

/-- The augmented matrix after the (possible) normalisation of the pivot row:
scaled by `1/pivot` exactly when `|pivot - 1.0| > eps`. -/
def scaleMat {n : ℕ} (M : AMat n) (col : Fin n) : AMat n :=
  if eps < |pivotValue M col - 1| then
    rowScale (pivotSwapMat M col) col (1 / pivotValue M col)
  else pivotSwapMat M col

/-- The steps recorded by the normalisation phase. -/
def scaleDelta {n : ℕ} (M : AMat n) (col : Fin n) : List (Step n) :=
  if eps < |pivotValue M col - 1| then [Step.scale col (1 / pivotValue M col)] else []

/-- The steps the elimination phase records when the rows in `l` are visited
on a matrix whose rows in `l` currently read as in `M`: one
`RowCombine(r, col, -M r col)` for each `r ≠ col` with `|M r col| > eps`. -/
def elimDelta {n : ℕ} (col : Fin n) (M : AMat n) (l : List (Fin n)) : List (Step n) :=
  (l.filter (fun r => r ≠ col ∧ eps < |M r (Sum.inl col)|)).map
    (fun r => Step.combine r col (-(M r (Sum.inl col))))

/-- The body of the elimination loop, for one candidate row `r`: when
`r ≠ col` and `|augmented[r][col]| > 1e-10`, add `factor = -augmented[r][col]`
times the pivot row and record a type-3 step, else do nothing. -/
def elimF {n : ℕ} (col : Fin n) (p : AMat n × List (Step n)) (r : Fin n) :
    AMat n × List (Step n) :=
  if r ≠ col ∧ eps < |p.1 r (Sum.inl col)| then
    (rowCombine p.1 r col (-(p.1 r (Sum.inl col))),
      p.2 ++ [Step.combine r col (-(p.1 r (Sum.inl col)))])
  else p

/-- The elimination loop of one pivot column: `for row in range(n)` running
`elimF` on every row. -/
def elimCol {n : ℕ} (M : AMat n) (col : Fin n) : AMat n × List (Step n) :=
  (List.finRange n).foldl (elimF col) (M, [])

/-- One iteration of the `for col in range(n)` loop: partial pivoting, the
swap, the `|pivot| < 1e-10` singularity abort, the normalisation, the
elimination.  `none` models the raised `LinAlgError`. -/
def processCol {n : ℕ} (M : AMat n) (col : Fin n) : Option (AMat n × List (Step n)) :=
  let maxRow := findPivot M col
  let p1 : AMat n × List (Step n) :=
    if maxRow ≠ col then (rowSwap M col maxRow, [Step.swap col maxRow]) else (M, [])
  if |p1.1 col (Sum.inl col)| < eps then none
  else
    let pivot := p1.1 col (Sum.inl col)
    let p2 : AMat n × List (Step n) :=
      if eps < |pivot - 1| then
        (rowScale p1.1 col (1 / pivot), p1.2 ++ [Step.scale col (1 / pivot)])
      else p1
    let p3 := elimCol p2.1 col
    some (p3.1, p2.2 ++ p3.2)

/-- The steps one successful column iteration appends. -/
def colDelta {n : ℕ} (M : AMat n) (col : Fin n) : List (Step n) :=
  swapDelta M col ++ scaleDelta M col ++ elimDelta col (scaleMat M col) (List.finRange n)

/-- The augmented matrix `[A | I]` built by `np.hstack([matrix.copy(), np.eye(n)])`. -/
def augmentMat {n : ℕ} (A : Mat n) : AMat n :=
  Matrix.fromColumns A 1

/-- The left `N×N` block of the augmented matrix (the transformed copy of `A`). -/
def leftHalf {n : ℕ} (M : AMat n) : Mat n :=
  M.submatrix id Sum.inl

/-- The right `N×N` block, `augmented[:, n:]`, extracted as the inverse. -/
def rightHalf {n : ℕ} (M : AMat n) : Mat n :=
  M.submatrix id Sum.inr

/-- One fold state transition of the column loop, threading the accumulated
step list. -/
def gstep {n : ℕ} (p : AMat n × List (Step n)) (col : Fin n) :
    Option (AMat n × List (Step n)) :=
  (processCol p.1 col).map fun q => (q.1, p.2 ++ q.2)

/-- The whole elimination: the `for col in range(n)` loop on `[A | I]`. -/
def gaussAug {n : ℕ} (A : Mat n) : Option (AMat n × List (Step n)) :=
  (List.finRange n).foldlM gstep (augmentMat A, [])

/-- The run truncated to the first `k` pivot columns. -/
def gaussUpTo {n : ℕ} (A : Mat n) (k : ℕ) : Option (AMat n × List (Step n)) :=
  ((List.finRange n).take k).foldlM gstep (augmentMat A, [])

/-- `gauss_jordan_inverse`: the inverse (right block of the final augmented
matrix) together with the recorded steps; `none` is the `LinAlgError`
("Matrix is singular") raised at a negligible pivot. -/
def gauss_jordan_inverse {n : ℕ} (A : Mat n) :
    Option (Mat n × List (Step n)) :=
  (gaussAug A).map fun p => (rightHalf p.1, p.2)

/-- `calculate_inverse`: computes the determinant of the caller's matrix
first, reports singularity when `|det| < 1e-10`, and otherwise runs the
engine, producing the complete `(determinant, inverse, steps)` payload
(`none` also covers the engine's own `LinAlgError`). -/
def calculate_inverse {n : ℕ} (A : Mat n) :
    Option (ℚ × Mat n × List (Step n)) :=
  if |A.det| < eps then none
  else (gauss_jordan_inverse A).map fun p => (A.det, p.1, p.2)

/-! ## The operation formatter -/

/-- Python's `round()`: nearest integer, ties to the even neighbour. -/
def pyRound (q : ℚ) : ℤ :=
  let f := ⌊q⌋
  let r := q - f
  if r < 1 / 2 then f
  else if 1 / 2 < r then f + 1
  else if f % 2 = 0 then f else f + 1

/-- The decimal digits of `m`, least significant first; the first argument is
fuel bounding the recursion depth (any fuel `≥ m` is enough). -/
def natDigs : ℕ → ℕ → List ℕ
  | 0, _ => []
  | fuel + 1, m => if m = 0 then [] else m % 10 :: natDigs fuel (m / 10)

/-- The decimal rendering of a natural number (Python `str` of a
nonnegative `int`). -/
def natStr (m : ℕ) : String :=
  if m = 0 then "0" else String.mk (((natDigs m m).map Nat.digitChar).reverse)

/-- The decimal rendering of an integer (Python `str(int(...))`). -/
def intStr (k : ℤ) : String :=
  (if k < 0 then "-" else "") ++ natStr k.natAbs

/-- `q * 10000` rounded to an integer: the scaled mantissa of the `"%.4f"`
fixed-point rendering. -/
def rnd4 (q : ℚ) : ℤ := pyRound (q * 10000)

/-- The integer part of the `"%.4f"` rendering, sign included. -/
def int4 (q : ℚ) : String :=
  (if q < 0 then "-" else "") ++ natStr ((rnd4 q).natAbs / 10000)

/-- The four digits after the decimal point of the `"%.4f"` rendering. -/
def frac4 (q : ℚ) : String :=
  let a := (rnd4 q).natAbs % 10000
  String.mk [Nat.digitChar (a / 1000), Nat.digitChar (a / 100 % 10),
    Nat.digitChar (a / 10 % 10), Nat.digitChar (a % 10)]

/-- `f"{value:.4f}"`: fixed-point rendering with exactly four decimals. -/
def fixed4 (q : ℚ) : String := int4 q ++ "." ++ frac4 q

/-- `format_number`: `"0"` below the tolerance, a bare integer within the
tolerance of an integer, otherwise four fixed decimals. -/
def format_number (v : ℚ) : String :=
  if |v| < eps then "0"
  else if |v - pyRound v| < eps then intStr (pyRound v)
  else fixed4 v

/-- The `SUBSCRIPT_DIGITS` translation table: a decimal digit becomes the
corresponding Unicode subscript digit, anything else is unchanged. -/
def subChar (c : Char) : Char :=
  if c = '0' then '₀' else if c = '1' then '₁' else if c = '2' then '₂'
  else if c = '3' then '₃' else if c = '4' then '₄' else if c = '5' then '₅'
  else if c = '6' then '₆' else if c = '7' then '₇' else if c = '8' then '₈'
  else if c = '9' then '₉' else c

/-- `to_subscript`: `str(n).translate(SUBSCRIPT_DIGITS)`. -/
def to_subscript (k : ℕ) : String :=
  String.mk ((natStr k).data.map subChar)

/-- The operation string the source appends with each step (1-based indices,
scalars through `format_number`). -/
def Step.render {n : ℕ} : Step n → String
  | .swap i j => "E" ++ to_subscript (i.val + 1) ++ "," ++ to_subscript (j.val + 1)
  | .scale i c => "E" ++ to_subscript (i.val + 1) ++ "(" ++ format_number c ++ ")"
  | .combine r src f =>
      "E" ++ to_subscript (r.val + 1) ++ "," ++ to_subscript (src.val + 1) ++
        "(" ++ format_number f ++ ")"

/-! ## The caller's frame: the engine's two arrays as explicit state -/

/-- The two arrays the engine can reach: the caller's `matrix` argument and
the engine's private `augmented` buffer.  Every assignment in the source
targets `augmented`; `matrix` is only read. -/
structure EngineState (n : ℕ) where
  matrix : Mat n
  augmented : AMat n

/-- One column iteration on the explicit two-array state: the writes of
`processCol` land in `augmented`, a raised `LinAlgError` (`Except.error`)
freezes the state as it stood. -/
def stepRun {n : ℕ} (p : EngineState n × List (Step n)) (col : Fin n) :
    Except (EngineState n) (EngineState n × List (Step n)) :=
  match processCol p.1.augmented col with
  | none => .error p.1
  | some q => .ok (⟨p.1.matrix, q.1⟩, p.2 ++ q.2)

/-- The full engine run on the explicit two-array state. -/
def gaussRun {n : ℕ} (A : Mat n) :
    Except (EngineState n) (EngineState n × List (Step n)) :=
  (List.finRange n).foldlM stepRun (⟨A, augmentMat A⟩, [])

/-! ## Shape of the per-column step groups -/

/-- The shape of the steps one pivot-column iteration can record: at most one
row swap `E(col, j)` with `col < j`, then at most one scaling of row `col`,
then combines into pairwise increasing target rows distinct from `col`,
all sourced at row `col`. -/
def colGroup {n : ℕ} (col : Fin n) (g : List (Step n)) : Prop :=
  ∃ sw sc cb : List (Step n),
    g = sw ++ sc ++ cb ∧
    (sw = [] ∨ ∃ j : Fin n, col < j ∧ sw = [Step.swap col j]) ∧
    (sc = [] ∨ ∃ c : ℚ, sc = [Step.scale col c]) ∧
    ∃ (rs : List (Fin n)) (f : Fin n → ℚ),
      rs.Chain' (· < ·) ∧ (∀ r ∈ rs, r ≠ col) ∧
      cb = rs.map fun r => Step.combine r col (f r)

/-! ## Concrete inputs for witnesses and counterexamples -/

/-- Scenario 5 of the spec: `A = [[2,0,0],[0,2,0],[0,0,2]]`. -/
def diagTwo : Mat 3 := Matrix.of fun i j => if i = j then 2 else 0

/-- The inverse scenario 5 expects: `diag(0.5, 0.5, 0.5)`. -/
def diagHalf : Mat 3 := Matrix.of fun i j => if i = j then (1 : ℚ) / 2 else 0

/-- `[[1, 0], [9.9e-11, 1e-10]]`: the engine succeeds on it, but the entry
`9.9e-11` is skipped by the `ε`-test of the elimination phase while the
second pivot `1e-10` passes the singularity test, so the skipped residue is
amplified by the factor `1e10`. -/
def cexA : Mat 2 := Matrix.of fun i j =>
  if i = 0 then (if j = 0 then 1 else 0)
  else (if j = 0 then 99 / 10 ^ 12 else 1 / 10 ^ 10)

/-- The inverse the engine returns on `cexA`: `[[1, 0], [0, 1e10]]`. -/
def cexInv : Mat 2 := Matrix.of fun i j =>
  if i = 0 then (if j = 0 then 1 else 0) else (if j = 0 then 0 else 10 ^ 10)

/-- `diag(2, 2)`, a well-behaved input used to instantiate hypotheses. -/
def wA : Mat 2 := Matrix.of fun i j => if i = j then 2 else 0

/-- The inverse of `wA`: `diag(0.5, 0.5)`. -/
def wInv : Mat 2 := Matrix.of fun i j => if i = j then (1 : ℚ) / 2 else 0

/-- The final augmented matrix of the run on `wA`: `[I | diag(0.5, 0.5)]`. -/
def wAug : AMat 2 := Matrix.fromColumns 1 wInv

/-- The steps the run on `wA` records. -/
def wSteps : List (Step 2) := [Step.scale 0 (1 / 2), Step.scale 1 (1 / 2)]

/-- The augmented matrix after the first column iteration on `wA`:
`[[1,0],[0,2]]` on the left, `[[1/2,0],[0,1]]` on the right. -/
def wAug0 : AMat 2 :=
  Matrix.fromColumns
    (Matrix.of fun i j => if i = j then (if i = 0 then 1 else 2) else 0)
    (Matrix.of fun i j => if i = j then (if i = 0 then (1 : ℚ) / 2 else 1) else 0)

/-- The steps the first column iteration on `wA` records. -/
def wDelta0 : List (Step 2) := [Step.scale 0 (1 / 2)]

/-- `diag(1e-5, 1e-6)`: every pivot clears the `ε` bar but the determinant
`1e-11` does not, so the two near-zero tests disagree on it. -/
def detGapA : Mat 2 := Matrix.of fun i j =>
  if i = j then (if i = 0 then 1 / 10 ^ 5 else 1 / 10 ^ 6) else 0

/-! ## Elementary facts about step application -/

theorem applySteps_nil {n : ℕ} {m : Type} (M : Matrix (Fin n) m ℚ) :
    applySteps [] M = M := rfl

theorem applySteps_cons {n : ℕ} {m : Type} (s : Step n) (l : List (Step n))
    (M : Matrix (Fin n) m ℚ) :
    applySteps (s :: l) M = applySteps l (s.apply M) := rfl

theorem applySteps_append {n : ℕ} {m : Type} (l₁ l₂ : List (Step n))
    (M : Matrix (Fin n) m ℚ) :
    applySteps (l₁ ++ l₂) M = applySteps l₂ (applySteps l₁ M) :=
  List.foldl_append _ _ _ _

theorem applySteps_one {n : ℕ} {m : Type} (s : Step n) (M : Matrix (Fin n) m ℚ) :
    applySteps [s] M = s.apply M := rfl

/-- Each elementary row operation is left multiplication by the matrix it
makes out of the identity. -/
theorem Step.apply_eq_mul {n : ℕ} {m : Type} (s : Step n) (M : Matrix (Fin n) m ℚ) :
    s.apply M = s.apply (1 : Mat n) * M := by
  cases s with
  | swap i j =>
      funext r c
      simp [Step.apply, rowSwap, Matrix.mul_apply, Matrix.submatrix_apply,
        Matrix.one_apply, ite_mul, one_mul, zero_mul]
  | scale i k =>
      funext r c
      by_cases h : r = i <;>
        simp [Step.apply, rowScale, Matrix.mul_apply, Matrix.updateRow_apply, h,
          Matrix.one_apply, ite_mul, one_mul, zero_mul, mul_comm, mul_left_comm]
  | combine r0 src f =>
      funext r c
      by_cases h : r = r0 <;>
        simp [Step.apply, rowCombine, Matrix.mul_apply, Matrix.updateRow_apply, h,
          Matrix.one_apply, ite_mul, one_mul, zero_mul, add_mul, mul_add, mul_ite,
          mul_one, mul_zero, Finset.sum_add_distrib, mul_comm, mul_left_comm]

/-- Applying a step list is left multiplication by the matrix the list makes
out of the identity. -/
theorem applySteps_eq_mul {n : ℕ} {m : Type} (l : List (Step n))
    (M : Matrix (Fin n) m ℚ) :
    applySteps l M = applySteps l (1 : Mat n) * M := by
  induction l generalizing m with
  | nil => simp [applySteps_nil]
  | cons s tl ih =>
      rw [applySteps_cons, applySteps_cons, ih (s.apply M),
        ih (s.apply (1 : Mat n)), Step.apply_eq_mul s M, Matrix.mul_assoc]

/-! ## The two halves of the augmented matrix evolve in lockstep -/

theorem leftHalf_apply {n : ℕ} (s : Step n) (M : AMat n) :
    leftHalf (s.apply M) = s.apply (leftHalf M) := by
  cases s with
  | swap i j =>
      funext r c
      simp [Step.apply, rowSwap, leftHalf, Matrix.submatrix_apply]
  | scale i k =>
      funext r c
      by_cases h : r = i <;>
        simp [Step.apply, rowScale, leftHalf, Matrix.submatrix_apply,
          Matrix.updateRow_apply, h]
  | combine r0 src f =>
      funext r c
      by_cases h : r = r0 <;>
        simp [Step.apply, rowCombine, leftHalf, Matrix.submatrix_apply,
          Matrix.updateRow_apply, h]

theorem rightHalf_apply {n : ℕ} (s : Step n) (M : AMat n) :
    rightHalf (s.apply M) = s.apply (rightHalf M) := by
  cases s with
  | swap i j =>
      funext r c
      simp [Step.apply, rowSwap, rightHalf, Matrix.submatrix_apply]
  | scale i k =>
      funext r c
      by_cases h : r = i <;>
        simp [Step.apply, rowScale, rightHalf, Matrix.submatrix_apply,
          Matrix.updateRow_apply, h]
  | combine r0 src f =>
      funext r c
      by_cases h : r = r0 <;>
        simp [Step.apply, rowCombine, rightHalf, Matrix.submatrix_apply,
          Matrix.updateRow_apply, h]

theorem leftHalf_applySteps {n : ℕ} (l : List (Step n)) (M : AMat n) :
    leftHalf (applySteps l M) = applySteps l (leftHalf M) := by
  induction l generalizing M with
  | nil => rfl
  | cons s tl ih => rw [applySteps_cons, applySteps_cons, ih, leftHalf_apply]

theorem rightHalf_applySteps {n : ℕ} (l : List (Step n)) (M : AMat n) :
    rightHalf (applySteps l M) = applySteps l (rightHalf M) := by
  induction l generalizing M with
  | nil => rfl
  | cons s tl ih => rw [applySteps_cons, applySteps_cons, ih, rightHalf_apply]

theorem leftHalf_augmentMat {n : ℕ} (A : Mat n) : leftHalf (augmentMat A) = A := rfl

theorem rightHalf_augmentMat {n : ℕ} (A : Mat n) :
    rightHalf (augmentMat A) = (1 : Mat n) := rfl

/-! ## Closed form of one pivot-column iteration -/

theorem elimDelta_cons {n : ℕ} (col : Fin n) (M0 : AMat n) (hd : Fin n)
    (tl : List (Fin n)) :
    elimDelta col M0 (hd :: tl) =
      (if hd ≠ col ∧ eps < |M0 hd (Sum.inl col)| then
        [Step.combine hd col (-(M0 hd (Sum.inl col)))] else []) ++ elimDelta col M0 tl := by
  by_cases hc : hd ≠ col ∧ eps < |M0 hd (Sum.inl col)| <;>
    simp [elimDelta, List.filter_cons, hc]

/-- The elimination loop is replay of the steps it records: visiting the rows
`l` (pairwise distinct, currently reading as in `M0`) applies exactly the
recorded combines and appends them to the accumulator. -/
theorem elimFold {n : ℕ} (col : Fin n) (M0 : AMat n) :
    ∀ l : List (Fin n), l.Nodup →
      ∀ (M : AMat n) (acc : List (Step n)),
        (∀ r ∈ l, M r = M0 r) →
        l.foldl (elimF col) (M, acc) =
          (applySteps (elimDelta col M0 l) M, acc ++ elimDelta col M0 l) := by
  intro l
  induction l with
  | nil => intro _ M acc _; simp [elimDelta, applySteps_nil]
  | cons hd tl ih =>
      intro hnd M acc hM
      have hhd : M hd = M0 hd := hM hd (List.mem_cons_self hd tl)
      have htl : tl.Nodup := (List.nodup_cons.mp hnd).2
      have hni : hd ∉ tl := (List.nodup_cons.mp hnd).1
      rw [List.foldl_cons, elimDelta_cons]
      by_cases hc : hd ≠ col ∧ eps < |M0 hd (Sum.inl col)|
      · have hc' : hd ≠ col ∧ eps < |M hd (Sum.inl col)| := by rw [hhd]; exact hc
        have hstep : elimF col (M, acc) hd =
            (rowCombine M hd col (-(M hd (Sum.inl col))),
              acc ++ [Step.combine hd col (-(M hd (Sum.inl col)))]) := if_pos hc'
        rw [hstep, ih htl _ _ (fun r hr => by
          have hrne : r ≠ hd := fun he => hni (he ▸ hr)
          rw [rowCombine, Matrix.updateRow_ne hrne]
          exact hM r (List.mem_cons_of_mem hd hr))]
        rw [if_pos hc, hhd]
        simp [applySteps_append, applySteps_one, applySteps_cons, Step.apply,
          List.append_assoc]
      · have hc' : ¬(hd ≠ col ∧ eps < |M hd (Sum.inl col)|) := by rw [hhd]; exact hc
        have hstep : elimF col (M, acc) hd = (M, acc) := if_neg hc'
        rw [hstep, ih htl _ _ (fun r hr => hM r (List.mem_cons_of_mem hd hr)),
          if_neg hc, List.nil_append]

theorem elimCol_eq {n : ℕ} (M : AMat n) (col : Fin n) :
    elimCol M col = (applySteps (elimDelta col M (List.finRange n)) M,
      elimDelta col M (List.finRange n)) := by
  have h := elimFold col M (List.finRange n) (List.nodup_finRange n) M []
    (fun r _ => rfl)
  simpa [elimCol] using h

theorem applySteps_swapDelta {n : ℕ} (M : AMat n) (col : Fin n) :
    applySteps (swapDelta M col) M = pivotSwapMat M col := by
  by_cases h : findPivot M col ≠ col <;>
    simp [swapDelta, pivotSwapMat, h, applySteps_one, applySteps_nil, Step.apply]

theorem applySteps_scaleDelta {n : ℕ} (M : AMat n) (col : Fin n) :
    applySteps (scaleDelta M col) (pivotSwapMat M col) = scaleMat M col := by
  unfold scaleDelta scaleMat
  by_cases h : eps < |pivotValue M col - 1|
  · rw [if_pos h, if_pos h, applySteps_one]
    rfl
  · rw [if_neg h, if_neg h, applySteps_nil]

/-- Closed form of one column iteration: `none` exactly when the pivot after
partial pivoting is negligible, and otherwise replay of the recorded
`colDelta` steps. -/
theorem processCol_eq {n : ℕ} (M : AMat n) (col : Fin n) :
    processCol M col =
      if |pivotValue M col| < eps then none
      else some (applySteps (colDelta M col) M, colDelta M col) := by
  have hswap : (if findPivot M col ≠ col then
      (rowSwap M col (findPivot M col), [Step.swap col (findPivot M col)])
      else (M, ([] : List (Step n)))) = (pivotSwapMat M col, swapDelta M col) := by
    by_cases h : findPivot M col ≠ col <;> simp [pivotSwapMat, swapDelta, h]
  simp only [processCol]
  rw [hswap]
  dsimp only
  by_cases hpiv : |pivotValue M col| < eps
  · rw [if_pos (show |pivotSwapMat M col col (Sum.inl col)| < eps from hpiv),
      if_pos hpiv]
  · rw [if_neg (show ¬ |pivotSwapMat M col col (Sum.inl col)| < eps from hpiv),
      if_neg hpiv]
    have hL : applySteps (colDelta M col) M =
        applySteps (elimDelta col (scaleMat M col) (List.finRange n)) (scaleMat M col) := by
      rw [colDelta, applySteps_append, applySteps_append, applySteps_swapDelta,
        applySteps_scaleDelta]
    rw [hL, colDelta]
    by_cases hsc : eps < |pivotSwapMat M col col (Sum.inl col) - 1|
    · rw [if_pos hsc]
      dsimp only
      rw [elimCol_eq]
      simp [scaleMat, scaleDelta, pivotValue, hsc, List.append_assoc]
    · rw [if_neg hsc]
      dsimp only
      rw [elimCol_eq]
      simp [scaleMat, scaleDelta, pivotValue, hsc, List.append_assoc]

theorem processCol_none_iff {n : ℕ} (M : AMat n) (col : Fin n) :
    processCol M col = none ↔ |pivotValue M col| < eps := by
  rw [processCol_eq]
  by_cases h : |pivotValue M col| < eps <;> simp [h]

theorem processCol_some {n : ℕ} (M : AMat n) (col : Fin n) (aug : AMat n)
    (Δ : List (Step n)) (h : processCol M col = some (aug, Δ)) :
    Δ = colDelta M col ∧ aug = applySteps (colDelta M col) M ∧
      ¬ |pivotValue M col| < eps := by
  rw [processCol_eq] at h
  by_cases hpiv : |pivotValue M col| < eps
  · rw [if_pos hpiv] at h; exact absurd h (by simp)
  · rw [if_neg hpiv] at h
    have h' := Option.some.inj h
    exact ⟨(congrArg Prod.snd h').symm, (congrArg Prod.fst h').symm, hpiv⟩

/-! ## Partial pivoting selects the first row of maximal absolute value -/

theorem pivotFold_mem {n : ℕ} (M : AMat n) (col : Fin n) :
    ∀ (l : List (Fin n)) (b : Fin n),
      l.foldl (pivotF M col) b = b ∨ l.foldl (pivotF M col) b ∈ l := by
  intro l
  induction l with
  | nil => intro b; exact Or.inl rfl
  | cons hd tl ih =>
      intro b
      rw [List.foldl_cons]
      rcases ih (pivotF M col b hd) with h | h
      · rw [h]; unfold pivotF; split
        · exact Or.inr (List.mem_cons_self _ _)
        · exact Or.inl rfl
      · exact Or.inr (List.mem_cons_of_mem _ h)

theorem pivotFold_le {n : ℕ} (M : AMat n) (col : Fin n) :
    ∀ (l : List (Fin n)) (b r : Fin n), (r = b ∨ r ∈ l) →
      |M r (Sum.inl col)| ≤ |M (l.foldl (pivotF M col) b) (Sum.inl col)| := by
  intro l
  induction l with
  | nil =>
      rintro b r (rfl | h)
      · exact le_refl _
      · simp at h
  | cons hd tl ih =>
      rintro b r hr
      rw [List.foldl_cons]
      have hble : |M b (Sum.inl col)| ≤ |M (pivotF M col b hd) (Sum.inl col)| := by
        unfold pivotF; split
        · next h => exact le_of_lt h
        · exact le_refl _
      have hhdle : |M hd (Sum.inl col)| ≤ |M (pivotF M col b hd) (Sum.inl col)| := by
        unfold pivotF; split
        · exact le_refl _
        · next h => exact le_of_not_lt h
      rcases hr with rfl | hr
      · exact le_trans hble (ih _ _ (Or.inl rfl))
      · rcases List.mem_cons.mp hr with rfl | hr
        · exact le_trans hhdle (ih _ _ (Or.inl rfl))
        · exact ih _ _ (Or.inr hr)

theorem pivotFold_grow {n : ℕ} (M : AMat n) (col : Fin n) :
    ∀ (l : List (Fin n)) (b : Fin n),
      l.foldl (pivotF M col) b = b ∨
        |M b (Sum.inl col)| < |M (l.foldl (pivotF M col) b) (Sum.inl col)| := by
  intro l
  induction l with
  | nil => intro b; exact Or.inl rfl
  | cons hd tl ih =>
      intro b
      rw [List.foldl_cons]
      by_cases h : |M b (Sum.inl col)| < |M hd (Sum.inl col)|
      · rw [show pivotF M col b hd = hd from if_pos h]
        rcases ih hd with h2 | h2
        · rw [h2]; exact Or.inr h
        · exact Or.inr (lt_trans h h2)
      · rw [show pivotF M col b hd = b from if_neg h]
        exact ih b

/-- First row wins exact ties: every row placed strictly before the scan's
result (the scanned list being increasing, with the start below it) has a
strictly smaller absolute value. -/
theorem pivotFold_strict {n : ℕ} (M : AMat n) (col : Fin n) :
    ∀ (l : List (Fin n)), l.Pairwise (· < ·) →
      ∀ b : Fin n, (∀ x ∈ l, b < x) →
        ∀ r : Fin n, (r = b ∨ r ∈ l) → r < l.foldl (pivotF M col) b →
          |M r (Sum.inl col)| < |M (l.foldl (pivotF M col) b) (Sum.inl col)| := by
  intro l
  induction l with
  | nil =>
      rintro _ b hb r (rfl | hr) hlt
      · exact absurd hlt (lt_irrefl r)
      · simp at hr
  | cons hd tl ih =>
      intro hp b hb r hr hlt
      rw [List.foldl_cons] at hlt ⊢
      have hptl : tl.Pairwise (· < ·) := (List.pairwise_cons.mp hp).2
      have hhdlt : ∀ x ∈ tl, hd < x := (List.pairwise_cons.mp hp).1
      by_cases hswap : |M b (Sum.inl col)| < |M hd (Sum.inl col)|
      · rw [show pivotF M col b hd = hd from if_pos hswap] at hlt ⊢
        rcases hr with rfl | hr
        · exact lt_of_lt_of_le hswap (pivotFold_le M col tl hd hd (Or.inl rfl))
        · rcases List.mem_cons.mp hr with heq | hr
          · exact ih hptl hd hhdlt r (Or.inl heq) hlt
          · exact ih hptl hd hhdlt r (Or.inr hr) hlt
      · rw [show pivotF M col b hd = b from if_neg hswap] at hlt ⊢
        have hbtl : ∀ x ∈ tl, b < x := fun x hx => hb x (List.mem_cons_of_mem _ hx)
        rcases hr with heq | hr
        · exact ih hptl b hbtl r (Or.inl heq) hlt
        · rcases List.mem_cons.mp hr with rfl | hr
          · rcases pivotFold_grow M col tl b with h2 | h2
            · rw [h2] at hlt
              exact absurd hlt (not_lt.mpr (le_of_lt (hb r (List.mem_cons_self _ _))))
            · exact lt_of_le_of_lt (le_of_not_lt hswap) h2
          · exact ih hptl b hbtl r (Or.inr hr) hlt

theorem findPivot_ge {n : ℕ} (M : AMat n) (col : Fin n) : col ≤ findPivot M col := by
  unfold findPivot
  rcases pivotFold_mem M col ((List.finRange n).filter fun r => col < r) col with h | h
  · rw [h]
  · exact le_of_lt (by simpa using (List.mem_filter.mp h).2)

theorem findPivot_max {n : ℕ} (M : AMat n) (col : Fin n) (r : Fin n) (hr : col ≤ r) :
    |M r (Sum.inl col)| ≤ |M (findPivot M col) (Sum.inl col)| := by
  unfold findPivot
  apply pivotFold_le
  rcases lt_or_eq_of_le hr with hlt | heq
  · exact Or.inr (List.mem_filter.mpr ⟨List.mem_finRange r, by simpa using hlt⟩)
  · exact Or.inl heq.symm

theorem findPivot_first {n : ℕ} (M : AMat n) (col : Fin n) (r : Fin n)
    (hr : col ≤ r) (hlt : r < findPivot M col) :
    |M r (Sum.inl col)| < |M (findPivot M col) (Sum.inl col)| := by
  unfold findPivot at hlt ⊢
  apply pivotFold_strict M col _
    (List.Pairwise.sublist (List.filter_sublist _) (List.pairwise_lt_finRange n)) col
    (fun x hx => by simpa using (List.mem_filter.mp hx).2) r _ hlt
  rcases lt_or_eq_of_le hr with h | h
  · exact Or.inr (List.mem_filter.mpr ⟨List.mem_finRange r, by simpa using h⟩)
  · exact Or.inl h.symm

/-! ## Shape and size of one column's recorded steps -/

theorem colDelta_group {n : ℕ} (M : AMat n) (col : Fin n) :
    colGroup col (colDelta M col) := by
  refine ⟨swapDelta M col, scaleDelta M col,
    elimDelta col (scaleMat M col) (List.finRange n), rfl, ?_, ?_, ?_⟩
  · unfold swapDelta; split
    · next h =>
        exact Or.inr ⟨findPivot M col,
          lt_of_le_of_ne (findPivot_ge M col) (Ne.symm h), rfl⟩
    · exact Or.inl rfl
  · unfold scaleDelta; split
    · exact Or.inr ⟨_, rfl⟩
    · exact Or.inl rfl
  · refine ⟨(List.finRange n).filter
      (fun r => r ≠ col ∧ eps < |scaleMat M col r (Sum.inl col)|),
      fun r => -(scaleMat M col r (Sum.inl col)), ?_, ?_, rfl⟩
    · exact List.Pairwise.chain'
        (List.Pairwise.sublist (List.filter_sublist _) (List.pairwise_lt_finRange n))
    · intro r hr
      exact ((by simpa using (List.mem_filter.mp hr).2 :
        r ≠ col ∧ eps < |scaleMat M col r (Sum.inl col)|)).1

theorem colDelta_length {n : ℕ} (M : AMat n) (col : Fin n) :
    (colDelta M col).length ≤ n + 1 := by
  have hsw : (swapDelta M col).length ≤ 1 := by unfold swapDelta; split <;> simp
  have hsc : (scaleDelta M col).length ≤ 1 := by unfold scaleDelta; split <;> simp
  have helim : (elimDelta col (scaleMat M col) (List.finRange n)).length ≤ n - 1 := by
    unfold elimDelta
    rw [List.length_map]
    have hle := List.length_filter_le
      (fun r => decide (r ≠ col ∧ eps < |scaleMat M col r (Sum.inl col)|))
      (List.finRange n)
    have hne : ((List.finRange n).filter
        (fun r => r ≠ col ∧ eps < |scaleMat M col r (Sum.inl col)|)).length ≠
        (List.finRange n).length := by
      intro he
      have := (List.filter_length_eq_length.mp he) col (List.mem_finRange col)
      simp at this
    have hfr : (List.finRange n).length = n := List.length_finRange n
    omega
  have hn : 0 < n := col.pos
  unfold colDelta
  rw [List.length_append, List.length_append]
  omega

/-! ## The whole run: success is faithful replay, failure a negligible pivot -/

theorem gstep_eq_some {n : ℕ} (p : AMat n × List (Step n)) (col : Fin n)
    (q : AMat n × List (Step n)) (h : gstep p col = some q) :
    q = (applySteps (colDelta p.1 col) p.1, p.2 ++ colDelta p.1 col) := by
  obtain ⟨pc, hpc, hq⟩ := Option.map_eq_some'.mp h
  obtain ⟨h2, h1, _⟩ := processCol_some p.1 col pc.1 pc.2 (by rw [← hpc])
  rw [← hq, h2, h1]

theorem gstep_eq_none {n : ℕ} (p : AMat n × List (Step n)) (col : Fin n) :
    gstep p col = none ↔ |pivotValue p.1 col| < eps := by
  rw [gstep, Option.map_eq_none', processCol_none_iff]

/-- Success of the column loop over any column list: the recorded steps
decompose into per-column groups, the final state is their replay, and each
group has the per-column shape and size. -/
theorem gaussFold_some {n : ℕ} :
    ∀ (l : List (Fin n)) (M : AMat n) (acc : List (Step n)) (M' : AMat n)
      (steps : List (Step n)),
      l.foldlM gstep (M, acc) = some (M', steps) →
      ∃ g : List (List (Step n)),
        g.length = l.length ∧
        steps = acc ++ g.flatten ∧
        M' = applySteps g.flatten M ∧
        (∀ i (hi : i < l.length), colGroup (l.get ⟨i, hi⟩) (g.getD i [])) ∧
        g.flatten.length ≤ l.length * (n + 1) := by
  intro l
  induction l with
  | nil =>
      intro M acc M' steps h
      rw [List.foldlM_nil] at h
      have h' := Option.some.inj h
      have h1 : M' = M := (congrArg Prod.fst h').symm
      have h2 : steps = acc := (congrArg Prod.snd h').symm
      subst h1; subst h2
      refine ⟨[], rfl, by simp, rfl, ?_, by simp⟩
      intro i hi; exact absurd hi (Nat.not_lt_zero i)
  | cons col tl ih =>
      intro M acc M' steps h
      rw [List.foldlM_cons] at h
      obtain ⟨q, hq, htl⟩ := Option.bind_eq_some.mp h
      have hqe := gstep_eq_some (M, acc) col q hq
      rw [hqe] at htl
      dsimp only at htl
      obtain ⟨g, hlen, hsteps, hM, hgrp, hbound⟩ := ih _ _ _ _ htl
      refine ⟨colDelta M col :: g, by simp [hlen], ?_, ?_, ?_, ?_⟩
      · rw [hsteps]; simp [List.append_assoc]
      · rw [hM, List.flatten_cons, applySteps_append]
      · intro i hi
        cases i with
        | zero => exact colDelta_group M col
        | succ i' => exact hgrp i' (Nat.lt_of_succ_lt_succ hi)
      · rw [List.flatten_cons, List.length_append, List.length_cons, Nat.succ_mul]
        have := colDelta_length M col
        omega

/-- Failure of the column loop over any column list: exactly when some prefix
of the columns processes fine and the next pivot, after partial pivoting, is
below the tolerance. -/
theorem optionBind_some {α β : Type} (a : α) (f : α → Option β) :
    (some a >>= f) = f a := rfl

theorem optionBind_none {α β : Type} (f : α → Option β) :
    ((none : Option α) >>= f) = none := rfl

theorem gaussFold_none {n : ℕ} :
    ∀ (l : List (Fin n)) (M : AMat n) (acc : List (Step n)),
      l.foldlM gstep (M, acc) = none ↔
        ∃ (k : ℕ) (hk : k < l.length) (p : AMat n × List (Step n)),
          (l.take k).foldlM gstep (M, acc) = some p ∧
          |pivotValue p.1 (l.get ⟨k, hk⟩)| < eps := by
  intro l
  induction l with
  | nil =>
      intro M acc
      constructor
      · intro h; rw [List.foldlM_nil] at h; exact absurd h (by simp)
      · rintro ⟨k, hk, _⟩; exact absurd hk (Nat.not_lt_zero k)
  | cons col tl ih =>
      intro M acc
      rw [List.foldlM_cons]
      cases hg : gstep (M, acc) col with
      | none =>
          rw [optionBind_none]
          constructor
          · intro _
            refine ⟨0, Nat.succ_pos _, (M, acc),
              by rw [List.take_zero, List.foldlM_nil]; rfl, ?_⟩
            exact (gstep_eq_none (M, acc) col).mp hg
          · intro _; rfl
      | some q =>
          obtain ⟨qa, qs⟩ := q
          rw [optionBind_some, ih qa qs]
          constructor
          · rintro ⟨k, hk, p, hp, hpiv⟩
            refine ⟨k + 1, Nat.succ_lt_succ hk, p, ?_, hpiv⟩
            rw [List.take_succ_cons, List.foldlM_cons, hg, optionBind_some]
            exact hp
          · rintro ⟨k, hk, p, hp, hpiv⟩
            cases k with
            | zero =>
                rw [List.take_zero, List.foldlM_nil] at hp
                have hpe := Option.some.inj hp
                rw [← hpe] at hpiv
                have hn : gstep (M, acc) col = none :=
                  (gstep_eq_none (M, acc) col).mpr hpiv
                rw [hn] at hg
                exact absurd hg (by simp)
            | succ k' =>
                rw [List.take_succ_cons, List.foldlM_cons, hg, optionBind_some] at hp
                exact ⟨k', Nat.lt_of_succ_lt_succ hk, p, hp, hpiv⟩

/-- The successful full run, unpacked: the final augmented matrix is the
replay of the recorded steps on `[A | I]`, and the steps decompose into `n`
per-column groups of the recorded shape, at most `n·(n+1)` steps in all. -/
theorem gaussAug_some {n : ℕ} (A : Mat n) (aug : AMat n) (steps : List (Step n))
    (h : gaussAug A = some (aug, steps)) :
    aug = applySteps steps (augmentMat A) ∧
    (∃ g : List (List (Step n)), g.length = n ∧ steps = g.flatten ∧
      ∀ i : Fin n, colGroup i (g.getD i.val [])) ∧
    steps.length ≤ n * (n + 1) := by
  obtain ⟨g, hlen, hsteps, hM, hgrp, hbound⟩ :=
    gaussFold_some (List.finRange n) (augmentMat A) [] aug steps h
  have hsteps' : steps = g.flatten := by rw [hsteps]; simp
  refine ⟨by rw [hM, hsteps'], ⟨g, ?_, hsteps', ?_⟩, ?_⟩
  · rw [hlen, List.length_finRange]
  · intro i
    have hi : i.val < (List.finRange n).length := by
      rw [List.length_finRange]; exact i.isLt
    have := hgrp i.val hi
    rwa [List.get_finRange] at this
  · rw [hsteps']
    calc g.flatten.length ≤ (List.finRange n).length * (n + 1) := hbound
      _ = n * (n + 1) := by rw [List.length_finRange]

/-! ## Reconstructing a run's value from its projections -/

theorem option_run_eq {n : ℕ} {m : Type} (o : Option (Matrix (Fin n) m ℚ × List (Step n)))
    (M : Matrix (Fin n) m ℚ) (s : List (Step n))
    (h1 : o.map Prod.snd = some s)
    (h2 : ∀ i j, o.map (fun p => p.1 i j) = some (M i j)) :
    o = some (M, s) := by
  cases o with
  | none => simp at h1
  | some p =>
      obtain ⟨pa, ps⟩ := p
      rw [Option.map_some'] at h1
      have hs : ps = s := Option.some.inj h1
      have hM : pa = M := by
        funext i j
        have := h2 i j
        rw [Option.map_some'] at this
        exact Option.some.inj this
      rw [hs, hM]

/-! ## Membership in the per-phase step lists -/

theorem mem_swapDelta {n : ℕ} {M : AMat n} {col : Fin n} {s : Step n}
    (h : s ∈ swapDelta M col) :
    s = Step.swap col (findPivot M col) ∧ findPivot M col ≠ col := by
  unfold swapDelta at h
  split at h
  · next hne => exact ⟨List.mem_singleton.mp h, hne⟩
  · simp at h

theorem mem_scaleDelta {n : ℕ} {M : AMat n} {col : Fin n} {s : Step n}
    (h : s ∈ scaleDelta M col) :
    s = Step.scale col (1 / pivotValue M col) ∧ eps < |pivotValue M col - 1| := by
  unfold scaleDelta at h
  split at h
  · next hc => exact ⟨List.mem_singleton.mp h, hc⟩
  · simp at h

theorem mem_elimDelta {n : ℕ} {col : Fin n} {M0 : AMat n} {l : List (Fin n)}
    {s : Step n} (h : s ∈ elimDelta col M0 l) :
    ∃ r : Fin n, r ∈ l ∧ r ≠ col ∧ eps < |M0 r (Sum.inl col)| ∧
      s = Step.combine r col (-(M0 r (Sum.inl col))) := by
  unfold elimDelta at h
  obtain ⟨r, hr, hs⟩ := List.mem_map.mp h
  have hmem := List.mem_filter.mp hr
  have hcond : r ≠ col ∧ eps < |M0 r (Sum.inl col)| := by simpa using hmem.2
  exact ⟨r, hmem.1, hcond.1, hcond.2, hs.symm⟩

theorem elimDelta_mem {n : ℕ} {col : Fin n} {M0 : AMat n} (r : Fin n)
    (hr : r ≠ col) (hval : eps < |M0 r (Sum.inl col)|) :
    Step.combine r col (-(M0 r (Sum.inl col))) ∈ elimDelta col M0 (List.finRange n) := by
  unfold elimDelta
  exact List.mem_map.mpr ⟨r,
    List.mem_filter.mpr ⟨List.mem_finRange r, by simpa using ⟨hr, hval⟩⟩, rfl⟩

/-! ## C2: the step log is a faithful, complete account of the run -/

/-- C2: on success, replaying the recorded steps on the identity reproduces
the returned inverse (exactly, so in particular within `1e-9`); at every
intermediate point, the left half of the augmented matrix is the original
matrix transformed by the steps recorded so far, and the right half the
identity transformed by the same steps; and the run's final augmented matrix
is itself the replay of the full list on `[A | I]`. -/
theorem C2_replay {n : ℕ} (A : Mat n) (inv : Mat n) (steps : List (Step n))
    (h : gauss_jordan_inverse A = some (inv, steps)) :
    (∀ i j, |applySteps steps (1 : Mat n) i j - inv i j| ≤ 1 / 10 ^ 9) ∧
    applySteps steps (1 : Mat n) = inv ∧
    (∀ k : ℕ,
      leftHalf (applySteps (steps.take k) (augmentMat A)) =
        applySteps (steps.take k) A ∧
      rightHalf (applySteps (steps.take k) (augmentMat A)) =
        applySteps (steps.take k) (1 : Mat n)) ∧
    ∃ aug : AMat n, gaussAug A = some (aug, steps) ∧
      aug = applySteps steps (augmentMat A) := by
  obtain ⟨p, hp, hpe⟩ := Option.map_eq_some'.mp h
  obtain ⟨pa, ps⟩ := p
  have hsteps : ps = steps := congrArg Prod.snd hpe
  subst hsteps
  have hinv : rightHalf pa = inv := congrArg Prod.fst hpe
  obtain ⟨haug, -, -⟩ := gaussAug_some A pa ps hp
  have hreplay : applySteps ps (1 : Mat n) = inv := by
    rw [← hinv, haug, rightHalf_applySteps, rightHalf_augmentMat]
  refine ⟨?_, hreplay, ?_, ⟨pa, hp, haug⟩⟩
  · intro i j
    rw [hreplay, sub_self, abs_zero]
    norm_num
  · intro k
    exact ⟨by rw [leftHalf_applySteps, leftHalf_augmentMat],
      by rw [rightHalf_applySteps, rightHalf_augmentMat]⟩

theorem C2_replay_witness : applySteps wSteps (1 : Mat 2) = wInv :=
  (C2_replay wA wInv wSteps
    (option_run_eq _ _ _ (by decide) (by decide))).2.1

/-! ## C1: the identity law -/

/-- C1 (amended): when the run succeeds and its final left half is exactly
the identity — the epsilon-skipped normalisations and eliminations left no
residue — the returned inverse is a genuine two-sided inverse, exactly, so
in particular within `1e-6`. -/
theorem C1_identity {n : ℕ} (A : Mat n) (aug : AMat n) (steps : List (Step n))
    (h : gaussAug A = some (aug, steps)) (hL : leftHalf aug = 1) :
    A * rightHalf aug = 1 ∧ rightHalf aug * A = 1 ∧
    gauss_jordan_inverse A = some (rightHalf aug, steps) ∧
    (∀ i j, |(A * rightHalf aug) i j - (1 : Mat n) i j| ≤ 1 / 10 ^ 6) ∧
    (∀ i j, |(rightHalf aug * A) i j - (1 : Mat n) i j| ≤ 1 / 10 ^ 6) := by
  obtain ⟨haug, -, -⟩ := gaussAug_some A aug steps h
  have hR : rightHalf aug = applySteps steps (1 : Mat n) := by
    rw [haug, rightHalf_applySteps, rightHalf_augmentMat]
  have hLA : applySteps steps A = leftHalf aug := by
    rw [haug, leftHalf_applySteps, leftHalf_augmentMat]
  have hSA : rightHalf aug * A = 1 := by
    rw [hR, ← applySteps_eq_mul, hLA, hL]
  have hAS : A * rightHalf aug = 1 := Matrix.mul_eq_one_comm.mpr hSA
  refine ⟨hAS, hSA, ?_, ?_, ?_⟩
  · rw [gauss_jordan_inverse, h, Option.map_some']
  · intro i j; rw [hAS, sub_self, abs_zero]; norm_num
  · intro i j; rw [hSA, sub_self, abs_zero]; norm_num

theorem C1_identity_witness : wA * rightHalf wAug = 1 ∧ rightHalf wAug * wA = 1 :=
  have h := C1_identity wA wAug wSteps
    (option_run_eq _ _ _ (by decide) (by decide)) (by decide)
  ⟨h.1, h.2.1⟩

/-- C1 as stated fails on the code: on `cexA = [[1, 0], [9.9e-11, 1e-10]]`
the engine succeeds (one recorded step, scaling row 1 by `1e10`) and returns
`cexInv = [[1, 0], [0, 1e10]]`, yet `(cexInv * cexA)[1][0] = 0.99`, off the
identity by far more than `1e-6`: the elimination skipped the `9.9e-11`
entry as negligible and the later `1e10` scaling amplified the residue. -/
theorem C1_identity_counterexample :
    (gauss_jordan_inverse cexA).map Prod.snd = some [Step.scale 1 (10 ^ 10)] ∧
    (∀ i j : Fin 2, (gauss_jordan_inverse cexA).map (fun p => p.1 i j) =
      some (cexInv i j)) ∧
    1 / 10 ^ 6 < |(cexInv * cexA) 1 0 - (1 : Mat 2) 1 0| :=
  ⟨by decide, by decide, by decide⟩

/-! ## C3: failure is exactly a negligible pivot, and runs are all-or-nothing -/

/-- C3: the engine fails exactly when, for some pivot column, the pivot entry
after partial pivoting is below `1e-10` in absolute value, the earlier
columns having processed fine; and every run of the engine — and every call
of the surrounding `calculate_inverse` — either returns the complete payload
or the bare failure signal, never partial data. -/
theorem C3_singular {n : ℕ} (A : Mat n) :
    (gauss_jordan_inverse A = none ↔
      ∃ (k : Fin n) (p : AMat n × List (Step n)),
        gaussUpTo A k.val = some p ∧ |pivotValue p.1 k| < eps) ∧
    ((∃ q : Mat n × List (Step n), gauss_jordan_inverse A = some q) ∨
      gauss_jordan_inverse A = none) ∧
    ((∃ r : ℚ × Mat n × List (Step n), calculate_inverse A = some r) ∨
      calculate_inverse A = none) := by
  refine ⟨?_, ?_, ?_⟩
  · rw [gauss_jordan_inverse, Option.map_eq_none', gaussAug,
      gaussFold_none (List.finRange n) (augmentMat A) []]
    constructor
    · rintro ⟨k, hk, p, hp, hpiv⟩
      have hkn : k < n := by rwa [List.length_finRange] at hk
      refine ⟨⟨k, hkn⟩, p, hp, ?_⟩
      rwa [List.get_finRange] at hpiv
    · rintro ⟨k, p, hp, hpiv⟩
      have hk : k.val < (List.finRange n).length := by
        rw [List.length_finRange]; exact k.isLt
      refine ⟨k.val, hk, p, hp, ?_⟩
      rw [List.get_finRange]
      exact hpiv
  · cases gauss_jordan_inverse A with
    | none => exact Or.inr rfl
    | some q => exact Or.inl ⟨q, rfl⟩
  · cases calculate_inverse A with
    | none => exact Or.inr rfl
    | some r => exact Or.inl ⟨r, rfl⟩

/-! ## C4: partial pivoting and swap recording -/

/-- C4: the selected pivot row lies in `col..n-1`, carries the maximal
absolute value of column `col` over those rows, is the lowest such row on
exact ties; and a successful column iteration opens with the recorded
`RowSwap(col, max_row)` exactly when `max_row ≠ col` — every recorded swap
has `i = col`, `j = max_row` and `i < j`, so no-op swaps are never
recorded. -/
theorem C4_pivot_swap {n : ℕ} (M : AMat n) (col : Fin n) (aug : AMat n)
    (Δ : List (Step n)) :
    col ≤ findPivot M col ∧
    (∀ r : Fin n, col ≤ r →
      |M r (Sum.inl col)| ≤ |M (findPivot M col) (Sum.inl col)|) ∧
    (∀ r : Fin n, col ≤ r →
      |M r (Sum.inl col)| = |M (findPivot M col) (Sum.inl col)| →
      findPivot M col ≤ r) ∧
    (processCol M col = some (aug, Δ) →
      (findPivot M col ≠ col → Δ.head? = some (Step.swap col (findPivot M col))) ∧
      (findPivot M col = col → ∀ i j : Fin n, Step.swap i j ∉ Δ) ∧
      (∀ i j : Fin n, Step.swap i j ∈ Δ →
        i = col ∧ j = findPivot M col ∧ i < j)) := by
  refine ⟨findPivot_ge M col, fun r hr => findPivot_max M col r hr, ?_, ?_⟩
  · intro r hr heq
    by_contra hnle
    exact absurd heq (ne_of_lt (findPivot_first M col r hr (lt_of_not_le hnle)))
  · intro h
    obtain ⟨hΔ, -, -⟩ := processCol_some M col aug Δ h
    subst hΔ
    have hswapmem : ∀ i j : Fin n, Step.swap i j ∈ colDelta M col →
        Step.swap i j ∈ swapDelta M col := by
      intro i j hmem
      rcases List.mem_append.mp hmem with hmem' | he
      · rcases List.mem_append.mp hmem' with hs | hs
        · exact hs
        · exact absurd (mem_scaleDelta hs).1 (by simp)
      · obtain ⟨r, -, -, -, habs⟩ := mem_elimDelta he
        exact absurd habs (by simp)
    refine ⟨?_, ?_, ?_⟩
    · intro hne
      rw [colDelta, swapDelta, if_pos hne]
      rfl
    · intro hcol i j hmem
      have hs := (mem_swapDelta (hswapmem i j hmem)).2
      exact hs hcol
    · intro i j hmem
      obtain ⟨heq, hne⟩ := mem_swapDelta (hswapmem i j hmem)
      have hi : i = col := by
        injection heq with h1 h2
      have hj : j = findPivot M col := by
        injection heq with h1 h2
      refine ⟨hi, hj, ?_⟩
      rw [hi, hj]
      exact lt_of_le_of_ne (findPivot_ge M col) (Ne.symm hne)

theorem C4_pivot_swap_witness :
    (0 : Fin 2) ≤ findPivot (augmentMat wA) 0 ∧
    |augmentMat wA 1 (Sum.inl 0)| ≤
      |augmentMat wA (findPivot (augmentMat wA) 0) (Sum.inl 0)| :=
  ⟨(C4_pivot_swap (augmentMat wA) 0 wAug0 wDelta0).1,
    (C4_pivot_swap (augmentMat wA) 0 wAug0 wDelta0).2.1 1 (by decide)⟩

/-! ## C5: normalisation and elimination recording -/

/-- C5: in a successful column iteration, a `RowScale(col, 1/pivot)` step is
recorded exactly when the pivot differs from `1` by more than `1e-10` (and
every recorded scale targets row `col`); and a `RowCombine(r, col, factor)`
step is recorded exactly for the rows `r ≠ col` whose entry in column `col`
(in the state after swap and normalisation) exceeds `1e-10` in absolute
value, with `factor` the negated entry — entries already within the
tolerance of zero produce no step. -/
theorem C5_scale_combine {n : ℕ} (M : AMat n) (col : Fin n) (aug : AMat n)
    (Δ : List (Step n)) (h : processCol M col = some (aug, Δ)) :
    (∀ c : ℚ, Step.scale col c ∈ Δ ↔
      (eps < |pivotValue M col - 1| ∧ c = 1 / pivotValue M col)) ∧
    (∀ (i : Fin n) (c : ℚ), Step.scale i c ∈ Δ → i = col) ∧
    (∀ (r src : Fin n) (f : ℚ), Step.combine r src f ∈ Δ → src = col ∧ r ≠ col) ∧
    (∀ (r : Fin n) (f : ℚ), Step.combine r col f ∈ Δ ↔
      (r ≠ col ∧ eps < |scaleMat M col r (Sum.inl col)| ∧
        f = -(scaleMat M col r (Sum.inl col)))) := by
  obtain ⟨hΔ, -, -⟩ := processCol_some M col aug Δ h
  subst hΔ
  have hscale_mem : ∀ (i : Fin n) (c : ℚ), Step.scale i c ∈ colDelta M col →
      Step.scale i c ∈ scaleDelta M col := by
    intro i c hmem
    rcases List.mem_append.mp hmem with hmem' | he
    · rcases List.mem_append.mp hmem' with hs | hs
      · exact absurd (mem_swapDelta hs).1 (by simp)
      · exact hs
    · obtain ⟨r, -, -, -, habs⟩ := mem_elimDelta he
      exact absurd habs (by simp)
  have hcomb_mem : ∀ (r src : Fin n) (f : ℚ), Step.combine r src f ∈ colDelta M col →
      Step.combine r src f ∈ elimDelta col (scaleMat M col) (List.finRange n) := by
    intro r src f hmem
    rcases List.mem_append.mp hmem with hmem' | he
    · rcases List.mem_append.mp hmem' with hs | hs
      · exact absurd (mem_swapDelta hs).1 (by simp)
      · exact absurd (mem_scaleDelta hs).1 (by simp)
    · exact he
  refine ⟨?_, ?_, ?_, ?_⟩
  · intro c
    constructor
    · intro hmem
      obtain ⟨heq, hcond⟩ := mem_scaleDelta (hscale_mem col c hmem)
      refine ⟨hcond, ?_⟩
      injection heq with h1 h2
    · rintro ⟨hcond, rfl⟩
      rw [colDelta]
      refine List.mem_append.mpr (Or.inl (List.mem_append.mpr (Or.inr ?_)))
      rw [scaleDelta, if_pos hcond]
      exact List.mem_singleton.mpr rfl
  · intro i c hmem
    have heq := (mem_scaleDelta (hscale_mem i c hmem)).1
    injection heq with h1 h2
  · intro r src f hmem
    obtain ⟨r2, -, hr2, -, heq⟩ := mem_elimDelta (hcomb_mem r src f hmem)
    injection heq with h1 h2 h3
    subst h1; subst h2
    exact ⟨rfl, hr2⟩
  · intro r f
    constructor
    · intro hmem
      obtain ⟨r2, -, hr2, hval, heq⟩ := mem_elimDelta (hcomb_mem r col f hmem)
      injection heq with h1 h2 h3
      subst h1
      exact ⟨hr2, hval, h3⟩
    · rintro ⟨hr, hval, rfl⟩
      rw [colDelta]
      exact List.mem_append.mpr (Or.inr (elimDelta_mem r hr hval))

theorem C5_scale_combine_witness :
    Step.scale (0 : Fin 2) ((1 : ℚ) / 2) ∈ wDelta0 ↔
      (eps < |pivotValue (augmentMat wA) 0 - 1| ∧
        (1 : ℚ) / 2 = 1 / pivotValue (augmentMat wA) 0) :=
  (C5_scale_combine (augmentMat wA) 0 wAug0 wDelta0
    (option_run_eq _ _ _ (by decide) (by decide))).1 ((1 : ℚ) / 2)

/-! ## C6: the determinant gate is separate and about the original matrix -/

/-- C6: `calculate_inverse` reports the determinant of the original input
matrix, unchanged by the elimination trace, refuses the input as singular
whenever `|det| < 1e-10`, and this test is genuinely separate from the
per-pivot test: `detGapA = diag(1e-5, 1e-6)` passes every pivot check while
failing the determinant check. -/
theorem C6_determinant {n : ℕ} (A : Mat n) :
    (|A.det| < eps → calculate_inverse A = none) ∧
    (∀ (d : ℚ) (inv : Mat n) (steps : List (Step n)),
      calculate_inverse A = some (d, inv, steps) → d = A.det) ∧
    (|Matrix.det detGapA| < eps ∧ gauss_jordan_inverse detGapA ≠ none) := by
  refine ⟨?_, ?_, by decide, by decide⟩
  · intro hdet
    rw [calculate_inverse, if_pos hdet]
  · intro d inv steps h
    rw [calculate_inverse] at h
    split at h
    · exact absurd h (by simp)
    · obtain ⟨p, -, hpe⟩ := Option.map_eq_some'.mp h
      exact (congrArg Prod.fst hpe).symm

theorem C6_determinant_witness : calculate_inverse detGapA = none :=
  (C6_determinant detGapA).1 (by decide)

/-! ## C7: scenario 5 -/

/-- C7: on `diag(2,2,2)` the engine succeeds with exactly the three steps
`RowScale(0, 0.5)`, `RowScale(1, 0.5)`, `RowScale(2, 0.5)` — no swap, no
combine — and the returned inverse is `diag(0.5, 0.5, 0.5)`. -/
theorem C7_scenario5 :
    (gauss_jordan_inverse diagTwo).map Prod.snd =
      some [Step.scale 0 (1 / 2), Step.scale 1 (1 / 2), Step.scale 2 (1 / 2)] ∧
    (∀ i j : Fin 3, (gauss_jordan_inverse diagTwo).map (fun p => p.1 i j) =
      some (diagHalf i j)) ∧
    ([Step.scale (0 : Fin 3) ((1 : ℚ) / 2), Step.scale 1 (1 / 2),
        Step.scale 2 (1 / 2)].length = 3 ∧
      ∀ s ∈ [Step.scale (0 : Fin 3) ((1 : ℚ) / 2), Step.scale 1 (1 / 2),
        Step.scale 2 (1 / 2)], Step.kind s = 2) :=
  ⟨by decide, by decide, by decide⟩

/-! ## C10: global shape of the recorded step list -/

/-- C10: on success the recorded steps decompose into `n` consecutive
per-column groups, each holding (in order) at most one swap with
`col < max_row`, at most one scaling of row `col`, and combines into
pairwise increasing rows distinct from `col`; every kind tag is `1`, `2`
or `3`, and there are at most `n·(n+1)` steps in total. -/
theorem C10_step_shape {n : ℕ} (A : Mat n) (inv : Mat n) (steps : List (Step n))
    (h : gauss_jordan_inverse A = some (inv, steps)) :
    (∃ g : List (List (Step n)), g.length = n ∧ steps = g.flatten ∧
      ∀ i : Fin n, colGroup i (g.getD i.val [])) ∧
    (∀ s ∈ steps, Step.kind s = 1 ∨ Step.kind s = 2 ∨ Step.kind s = 3) ∧
    steps.length ≤ n * (n + 1) := by
  obtain ⟨p, hp, hpe⟩ := Option.map_eq_some'.mp h
  obtain ⟨pa, ps⟩ := p
  have hsteps : ps = steps := congrArg Prod.snd hpe
  subst hsteps
  obtain ⟨-, hg, hlen⟩ := gaussAug_some A pa ps hp
  refine ⟨hg, ?_, hlen⟩
  intro s _
  cases s with
  | swap _ _ => exact Or.inl rfl
  | scale _ _ => exact Or.inr (Or.inl rfl)
  | combine _ _ _ => exact Or.inr (Or.inr rfl)

theorem C10_step_shape_witness : wSteps.length ≤ 2 * (2 + 1) :=
  (C10_step_shape wA wInv wSteps
    (option_run_eq _ _ _ (by decide) (by decide))).2.2

/-! ## C9: the caller's matrix is never written -/

theorem exceptBind_ok {ε α β : Type} (a : α) (f : α → Except ε β) :
    ((.ok a : Except ε α) >>= f) = f a := rfl

theorem exceptBind_error {ε α β : Type} (e : ε) (f : α → Except ε β) :
    ((.error e : Except ε α) >>= f) = .error e := rfl

theorem stepRun_none {n : ℕ} (st : EngineState n) (acc : List (Step n))
    (col : Fin n) (hpc : processCol st.augmented col = none) :
    stepRun (st, acc) col = .error st := by
  show (match processCol st.augmented col with
    | none => (.error st : Except (EngineState n) (EngineState n × List (Step n)))
    | some q => .ok (⟨st.matrix, q.1⟩, acc ++ q.2)) = .error st
  rw [hpc]

theorem stepRun_some {n : ℕ} (st : EngineState n) (acc : List (Step n))
    (col : Fin n) (q : AMat n × List (Step n))
    (hpc : processCol st.augmented col = some q) :
    stepRun (st, acc) col = .ok (⟨st.matrix, q.1⟩, acc ++ q.2) := by
  show (match processCol st.augmented col with
    | none => (.error st : Except (EngineState n) (EngineState n × List (Step n)))
    | some q => .ok (⟨st.matrix, q.1⟩, acc ++ q.2)) = _
  rw [hpc]

theorem gstep_none_of {n : ℕ} (M : AMat n) (acc : List (Step n)) (col : Fin n)
    (hpc : processCol M col = none) : gstep (M, acc) col = none := by
  show (processCol M col).map _ = none
  rw [hpc]
  rfl

theorem gstep_some_of {n : ℕ} (M : AMat n) (acc : List (Step n)) (col : Fin n)
    (q : AMat n × List (Step n)) (hpc : processCol M col = some q) :
    gstep (M, acc) col = some (q.1, acc ++ q.2) := by
  show (processCol M col).map _ = _
  rw [hpc]
  rfl

/-- Every state the column loop can reach carries the caller's matrix
untouched: each transition writes only the `augmented` field. -/
theorem gaussRun_matrix {n : ℕ} :
    ∀ (l : List (Fin n)) (st : EngineState n) (acc : List (Step n)),
      (∀ (st2 : EngineState n) (steps2 : List (Step n)),
        l.foldlM stepRun (st, acc) = .ok (st2, steps2) → st2.matrix = st.matrix) ∧
      (∀ st2 : EngineState n,
        l.foldlM stepRun (st, acc) = .error st2 → st2.matrix = st.matrix) := by
  intro l
  induction l with
  | nil =>
      intro st acc
      constructor
      · intro st2 steps2 h
        rw [List.foldlM_nil] at h
        have h' := Except.ok.inj h
        have h2 : st2 = st := (congrArg Prod.fst h').symm
        rw [h2]
      · intro st2 h
        rw [List.foldlM_nil] at h
        exact Except.noConfusion h
  | cons col tl ih =>
      intro st acc
      cases hpc : processCol st.augmented col with
      | none =>
          have h1 := stepRun_none st acc col hpc
          constructor
          · intro st2 steps2 h
            rw [List.foldlM_cons, h1, exceptBind_error] at h
            exact Except.noConfusion h
          · intro st2 h
            rw [List.foldlM_cons, h1, exceptBind_error] at h
            rw [← Except.error.inj h]
      | some q =>
          have h1 := stepRun_some st acc col q hpc
          constructor
          · intro st2 steps2 h
            rw [List.foldlM_cons, h1, exceptBind_ok] at h
            exact (ih ⟨st.matrix, q.1⟩ (acc ++ q.2)).1 st2 steps2 h
          · intro st2 h
            rw [List.foldlM_cons, h1, exceptBind_ok] at h
            exact (ih ⟨st.matrix, q.1⟩ (acc ++ q.2)).2 st2 h

/-- The two-array run computes exactly what the pure run computes. -/
theorem gaussRun_toOption {n : ℕ} :
    ∀ (l : List (Fin n)) (st : EngineState n) (acc : List (Step n)),
      (l.foldlM stepRun (st, acc)).toOption.map (fun q => (q.1.augmented, q.2)) =
        l.foldlM gstep (st.augmented, acc) := by
  intro l
  induction l with
  | nil => intro st acc; rfl
  | cons col tl ih =>
      intro st acc
      rw [List.foldlM_cons, List.foldlM_cons]
      cases hpc : processCol st.augmented col with
      | none =>
          rw [stepRun_none st acc col hpc, gstep_none_of st.augmented acc col hpc,
            exceptBind_error, optionBind_none]
          rfl
      | some q =>
          rw [stepRun_some st acc col q hpc, gstep_some_of st.augmented acc col q hpc,
            exceptBind_ok, optionBind_some]
          exact ih ⟨st.matrix, q.1⟩ (acc ++ q.2)

/-- C9: the engine operates on its private augmented copy only.  On the
explicit two-array state — the caller's `matrix` and the engine's
`augmented`, every assignment of the source targeting the latter — the run
ends, successfully or not, with the caller's matrix element-for-element as it
started, and its observable outcome is exactly `gauss_jordan_inverse`. -/
theorem C9_no_mutation {n : ℕ} (A : Mat n) :
    (∀ (st : EngineState n) (steps : List (Step n)),
      gaussRun A = .ok (st, steps) → st.matrix = A) ∧
    (∀ st : EngineState n, gaussRun A = .error st → st.matrix = A) ∧
    (gaussRun A).toOption.map (fun q => (rightHalf q.1.augmented, q.2)) =
      gauss_jordan_inverse A := by
  have hm := gaussRun_matrix (List.finRange n) ⟨A, augmentMat A⟩ []
  refine ⟨fun st steps h => hm.1 st steps h, fun st h => hm.2 st h, ?_⟩
  have hrel := gaussRun_toOption (List.finRange n) ⟨A, augmentMat A⟩ []
  rw [gauss_jordan_inverse, gaussAug, ← hrel, gaussRun, Option.map_map]
  rfl

/-! ## C8: the scalar formatter -/

theorem eps_le_half : eps ≤ 1 / 2 := by norm_num [eps]

/-- A value within the tolerance of an integer rounds to that integer. -/
theorem pyRound_eq_of_near (v : ℚ) (k : ℤ) (h : |v - (k : ℚ)| < eps) :
    pyRound v = k := by
  have heps : eps ≤ 1 / 2 := eps_le_half
  have habs := abs_lt.mp h
  rcases le_or_lt (k : ℚ) v with hge | hlt
  · have hfloor : ⌊v⌋ = k := by
      rw [Int.floor_eq_iff]
      refine ⟨hge, ?_⟩
      linarith [habs.2]
    unfold pyRound
    rw [hfloor, if_pos]
    linarith [habs.2]
  · have hfloor : ⌊v⌋ = k - 1 := by
      rw [Int.floor_eq_iff]
      push_cast
      constructor <;> linarith [habs.1]
    unfold pyRound
    rw [hfloor]
    have h1 : ¬ (v - ((k - 1 : ℤ) : ℚ) < 1 / 2) := by push_cast; linarith [habs.1]
    have h2 : (1 : ℚ) / 2 < v - ((k - 1 : ℤ) : ℚ) := by push_cast; linarith [habs.1]
    rw [if_neg h1, if_pos h2]
    omega

/-- When the rounded value is within the tolerance, it is the nearest
integer. -/
theorem pyRound_nearest (v : ℚ) (h : |v - (pyRound v : ℚ)| < eps) (m : ℤ) :
    |v - (pyRound v : ℚ)| ≤ |v - (m : ℚ)| := by
  by_cases hm : m = pyRound v
  · rw [hm]
  · have hz : pyRound v - m ≠ 0 := fun hh => hm (by omega)
    have hone : (1 : ℚ) ≤ |(pyRound v : ℚ) - (m : ℚ)| := by
      have := Int.one_le_abs hz
      have hcast : |((pyRound v - m : ℤ) : ℚ)| = |(pyRound v : ℚ) - (m : ℚ)| := by
        push_cast; rfl
      rw [← hcast]
      exact_mod_cast this
    have htri : |(pyRound v : ℚ) - (m : ℚ)| ≤
        |(pyRound v : ℚ) - v| + |v - (m : ℚ)| := abs_sub_le _ _ _
    have hsymm : |(pyRound v : ℚ) - v| = |v - (pyRound v : ℚ)| := abs_sub_comm _ _
    have heps : eps ≤ 1 / 2 := eps_le_half
    linarith

theorem natDigs_lt : ∀ fuel m : ℕ, ∀ d ∈ natDigs fuel m, d < 10 := by
  intro fuel
  induction fuel with
  | zero => intro m d hd; simp [natDigs] at hd
  | succ f ih =>
      intro m d hd
      rw [natDigs] at hd
      split at hd
      · simp at hd
      · rcases List.mem_cons.mp hd with heq | hd
        · rw [heq]; exact Nat.mod_lt m (by norm_num)
        · exact ih (m / 10) d hd

theorem digitChar_isDigit (d : ℕ) (h : d < 10) : (Nat.digitChar d).isDigit = true := by
  have hall : ∀ x : Fin 10, (Nat.digitChar x.val).isDigit = true := by decide
  exact hall ⟨d, h⟩

theorem natStr_chars (m : ℕ) : ∀ c ∈ (natStr m).data, c.isDigit = true := by
  intro c hc
  unfold natStr at hc
  split at hc
  · rw [show ("0" : String).data = ['0'] from rfl] at hc
    rcases List.mem_singleton.mp hc with rfl
    decide
  · rw [show (String.mk (((natDigs m m).map Nat.digitChar).reverse)).data =
      ((natDigs m m).map Nat.digitChar).reverse from rfl, List.mem_reverse] at hc
    obtain ⟨d, hd, hcd⟩ := List.mem_map.mp hc
    rw [← hcd]
    exact digitChar_isDigit d (natDigs_lt m m d hd)

theorem no_dot_append (pre s : String) (hpre : pre = "-" ∨ pre = "")
    (hs : ∀ c ∈ s.data, c.isDigit = true) : '.' ∉ (pre ++ s).data := by
  intro hc
  rw [show (pre ++ s).data = pre.data ++ s.data from rfl] at hc
  rcases List.mem_append.mp hc with h | h
  · rcases hpre with rfl | rfl
    · rw [show ("-" : String).data = ['-'] from rfl] at h
      exact absurd (List.mem_singleton.mp h) (by decide)
    · rw [show ("" : String).data = ([] : List Char) from rfl] at h
      simp at h
  · exact absurd (hs '.' h) (by decide)

theorem intStr_no_dot (k : ℤ) : '.' ∉ (intStr k).data := by
  unfold intStr
  exact no_dot_append _ _ (by split; exacts [Or.inl rfl, Or.inr rfl]) (natStr_chars _)

theorem int4_no_dot (q : ℚ) : '.' ∉ (int4 q).data := by
  unfold int4
  exact no_dot_append _ _ (by split; exacts [Or.inl rfl, Or.inr rfl]) (natStr_chars _)

theorem frac4_length (q : ℚ) : (frac4 q).length = 4 := rfl

theorem frac4_chars (q : ℚ) : ∀ c ∈ (frac4 q).data, c.isDigit = true := by
  intro c hc
  unfold frac4 at hc
  have ha : (rnd4 q).natAbs % 10000 < 10000 := Nat.mod_lt _ (by norm_num)
  rw [show (String.mk [Nat.digitChar ((rnd4 q).natAbs % 10000 / 1000),
      Nat.digitChar ((rnd4 q).natAbs % 10000 / 100 % 10),
      Nat.digitChar ((rnd4 q).natAbs % 10000 / 10 % 10),
      Nat.digitChar ((rnd4 q).natAbs % 10000 % 10)]).data = _ from rfl] at hc
  simp only [List.mem_cons, List.not_mem_nil, or_false] at hc
  rcases hc with heq | heq | heq | heq
  · rw [heq]
    exact digitChar_isDigit _ ((Nat.div_lt_iff_lt_mul (by norm_num)).mpr (by omega))
  · rw [heq]; exact digitChar_isDigit _ (Nat.mod_lt _ (by norm_num))
  · rw [heq]; exact digitChar_isDigit _ (Nat.mod_lt _ (by norm_num))
  · rw [heq]; exact digitChar_isDigit _ (Nat.mod_lt _ (by norm_num))

/-- C8: `format_number` renders values below the tolerance as `"0"`, values
within the tolerance of an integer as that (nearest) integer with no decimal
point, and everything else with exactly four decimal digits; the rendered
scale and combine steps embed the formatted scalar verbatim. -/
theorem C8_format_number :
    (∀ v : ℚ, |v| < eps → format_number v = "0") ∧
    (∀ v : ℚ, ¬ |v| < eps → (∃ k : ℤ, |v - (k : ℚ)| < eps) →
      format_number v = intStr (pyRound v) ∧
      (∀ m : ℤ, |v - (pyRound v : ℚ)| ≤ |v - (m : ℚ)|) ∧
      '.' ∉ (intStr (pyRound v)).data) ∧
    (∀ v : ℚ, ¬ |v| < eps → (∀ k : ℤ, eps ≤ |v - (k : ℚ)|) →
      format_number v = int4 v ++ "." ++ frac4 v ∧
      (frac4 v).length = 4 ∧
      (∀ c ∈ (frac4 v).data, c.isDigit = true) ∧
      '.' ∉ (int4 v).data) ∧
    (∀ (N : ℕ) (i : Fin N) (c : ℚ), Step.render (Step.scale i c) =
      "E" ++ to_subscript (i.val + 1) ++ "(" ++ format_number c ++ ")") ∧
    (∀ (N : ℕ) (r src : Fin N) (f : ℚ), Step.render (Step.combine r src f) =
      "E" ++ to_subscript (r.val + 1) ++ "," ++ to_subscript (src.val + 1) ++
        "(" ++ format_number f ++ ")") := by
  refine ⟨?_, ?_, ?_, fun N i c => rfl, fun N r src f => rfl⟩
  · intro v h
    rw [format_number, if_pos h]
  · rintro v h1 ⟨k, hk⟩
    have hpr : pyRound v = k := pyRound_eq_of_near v k hk
    have h2 : |v - (pyRound v : ℚ)| < eps := by rw [hpr]; exact hk
    refine ⟨?_, fun m => pyRound_nearest v h2 m, intStr_no_dot _⟩
    rw [format_number, if_neg h1, if_pos h2]
  · intro v h1 h2
    have hnot : ¬ |v - (pyRound v : ℚ)| < eps := not_lt.mpr (h2 (pyRound v))
    refine ⟨?_, frac4_length v, frac4_chars v, int4_no_dot v⟩
    rw [format_number, if_neg h1, if_neg hnot]
    rfl

end MatrixInverter
